/-
Verification development for ckb-vm-pprof-converter (src/main.rs).

The Rust program reads folded stack-trace lines from stdin, parses each
line into a `Frame` (a call stack plus a cycle count), interns all symbol
display names and file labels into a string table, registers one
Function/Location pair per distinct symbol name, builds one Sample per
frame, and assembles a pprof `Profile` record.

The shallow embedding below translates the program line by line:
  * strings are `List Char` (`Str`); Rust byte indices coincide with char
    indices at every split point used by the program, because the split
    characters (' ', ':', and the separator "; ") are ASCII;
  * `HashSet<String>` iteration order is unspecified in Rust; it is
    modelled as insertion order (`hsInsert`), which fixes one admissible
    order — all properties proved about the table contents
    (membership, duplicate-freedom, index-0) are order-independent;
  * `HashMap<K, V>` is modelled as an association list where `insert`
    prepends and lookup takes the first (i.e. most recent) binding,
    which is exactly the observable get/insert semantics;
  * `u64`/`i64` values are `Nat`/`Int` with explicit two's-complement
    reduction (`toI64`, `wrapI64`) at the points where the source casts
    or where release-mode arithmetic wraps; `i64` division truncates
    toward zero (`Int.tdiv`), as in Rust;
  * the `expect` calls on parse failures are modelled by
    `Except String`; I/O (stdin reading, the final `std::fs::write`) is
    outside the model: a run that parses successfully yields `.ok` with
    the assembled `Profile`, a parse failure yields `.error` with the
    panic message, and no `Profile` value (hence no output artifact)
    exists in the error case.
-/
import Mathlib

set_option autoImplicit false

namespace CkbPprof

/-- Strings of the model: lists of characters. -/
abbrev Str := List Char

/-- Embeds `struct Symbol { name: Option<String>, file: Option<String> }`. -/
structure Symbol where
  name : Option Str
  file : Option Str
deriving DecidableEq

/-- The sentinel text used by `Symbol::name()` / `Symbol::file()` for absent fields. -/
def unknownStr : Str := "<Unknown>".toList

/-- Embeds `Symbol::name(&self) -> String`: the display name with `<Unknown>` fallback. -/
def Symbol.dispName (s : Symbol) : Str := s.name.getD unknownStr

/-- Embeds `Symbol::file(&self) -> String`: the file label with `<Unknown>` fallback. -/
def Symbol.dispFile (s : Symbol) : Str := s.file.getD unknownStr

/-- Embeds `struct Frame { stack: Vec<Symbol>, cycles: u64 }`.
`cycles` is a `Nat`; every frame produced by the parser satisfies
`cycles < 2^64` (enforced by `parseU64`). -/
structure Frame where
  stack : List Symbol
  cycles : Nat
deriving DecidableEq

/-- Embeds `const SAMPLES: &str = "samples"`. -/
def SAMPLES : Str := "samples".toList

/-- Embeds `const COUNT: &str = "count"`. -/
def COUNT : Str := "count".toList

/-- Embeds `const CPU: &str = "cpu"`. -/
def CPU : Str := "cpu".toList

/-- Embeds `const NANOSECONDS: &str = "nanoseconds"`. -/
def NANOSECONDS : Str := "nanoseconds".toList

/-- Embeds `const FREQUENCY: u64 = 1_000_000_000`. -/
def FREQUENCY : Nat := 1000000000

/-- Embeds Rust `str::rfind(' ')`: index of the last occurrence of `c`, if any. -/
def rfindIdx : Str → Char → Option Nat
  | [], _ => none
  | a :: rest, c =>
    match rfindIdx rest c with
    | some j => some (j + 1)
    | none => if a = c then some 0 else none

/-- Recursion core of `splitOnSep`. The fuel argument only makes the
recursion structural; it is always called with fuel ≥ the string length,
and consuming a non-empty separator strictly shrinks the string, so the
zero-fuel branch is unreachable. -/
def splitOnSepGo (sep : Str) : Nat → Str → List Str
  | _, [] => [[]]
  | 0, _ :: _ => [[]]
  | fuel + 1, c :: rest =>
    if sep ≠ [] ∧ sep.isPrefixOf (c :: rest) then
      [] :: splitOnSepGo sep fuel ((c :: rest).drop sep.length)
    else
      match splitOnSepGo sep fuel rest with
      | [] => [[c]]
      | t :: ts => (c :: t) :: ts

/-- Embeds Rust `str::split(sep)` for a non-empty separator: splitting the
empty string yields one empty piece, and separators are consumed left to
right. -/
def splitOnSep (sep : Str) (s : Str) : List Str :=
  splitOnSepGo sep s.length s

/-- Recursion core of `listReplace`; fuel as in `splitOnSepGo`. -/
def listReplaceGo (pat repl : Str) : Nat → Str → Str
  | _, [] => []
  | 0, s => s
  | fuel + 1, c :: rest =>
    if pat ≠ [] ∧ pat.isPrefixOf (c :: rest) then
      repl ++ listReplaceGo pat repl fuel ((c :: rest).drop pat.length)
    else
      c :: listReplaceGo pat repl fuel rest

/-- Embeds Rust `str::replace(pat, repl)`: replace every occurrence of the
non-empty pattern, scanning left to right. An empty pattern leaves the
string unchanged (the program only uses one-character patterns). -/
def listReplace (pat repl s : Str) : Str :=
  listReplaceGo pat repl s.length s

/-- Embeds `fn normalize_function_name(name: &str) -> String`:
`name.replace("<", "{").replace(">", "}").to_string()`. -/
def normalize_function_name (name : Str) : Str :=
  listReplace ['>'] ['}'] (listReplace ['<'] ['{'] name)

/-- Embeds `u64::from_str`: an optional leading `+`, then one or more ASCII
digits, with the value required to fit in 64 bits. -/
def parseU64 (s : Str) : Option Nat :=
  let digits := match s with
    | '+' :: rest => rest
    | _ => s
  if digits = [] then none
  else if digits.all Char.isDigit then
    let v := digits.foldl (fun acc c => acc * 10 + (c.toNat - 48)) 0
    if v < 2 ^ 64 then some v else none
  else none

/-- Embeds the per-token closure in `main`: a token containing `:` is split
on the first `:` into `file` and `name` (the name being normalized); a
token without `:` is a name with no file. -/
def parseToken (s : Str) : Symbol :=
  match s.findIdx? (fun c => c = ':') with
  | some j =>
    { file := some (s.take j)
    , name := some (normalize_function_name (s.drop (j + 1))) }
  | none =>
    { name := some (normalize_function_name s), file := none }

/-- Embeds the per-line parsing in `main`: locate the last space
(`expect("no cycles available!")` on failure), split the stack description
on `"; "`, parse each token, reverse the stack, and parse the trailing
cycle count (`expect("invalid cycle")` on failure). -/
def parseLine (line : Str) : Except String Frame :=
  match rfindIdx line ' ' with
  | none => Except.error "no cycles available!"
  | some i =>
    let stack := ((splitOnSep "; ".toList (line.take i)).map parseToken).reverse
    match parseU64 (line.drop (i + 1)) with
    | none => Except.error "invalid cycle"
    | some cycles => Except.ok { stack := stack, cycles := cycles }

/-- Embeds the stdin loop in `main`: parse every line, stopping at the
first failure. -/
def parseAll : List Str → Except String (List Frame)
  | [] => Except.ok []
  | l :: rest =>
    match parseLine l with
    | Except.error e => Except.error e
    | Except.ok f =>
      match parseAll rest with
      | Except.error e => Except.error e
      | Except.ok fs => Except.ok (f :: fs)

/-- Embeds `HashSet<String>::insert`: the set is kept as a duplicate-free
list in insertion order. -/
def hsInsert (l : List Str) (s : Str) : List Str :=
  if s ∈ l then l else l ++ [s]

/-- Embeds the `dedup_str` construction in `main`: every symbol's display
name and file label over all frames, then the four fixed labels. -/
def collectStrings (frames : List Frame) : List Str :=
  let d := frames.foldl
    (fun acc f => f.stack.foldl
      (fun a sym => hsInsert (hsInsert a sym.dispName) sym.dispFile) acc) []
  hsInsert (hsInsert (hsInsert (hsInsert d SAMPLES) COUNT) CPU) NANOSECONDS

/-- Embeds the `str_tbl` construction in `main`: the empty string, then the
deduplicated strings. -/
def strTbl (frames : List Frame) : List Str :=
  [] :: collectStrings frames

/-- Embeds `HashMap::get` on an association list (most recent binding first). -/
def hmLookup : List (Str × Nat) → Str → Option Nat
  | [], _ => none
  | (k, v) :: rest, n => if n = k then some v else hmLookup rest n

/-- Embeds the `strings` map construction in `main`: insert
`name ↦ index` for every table entry in order (later inserts shadow
earlier ones). -/
def buildStrings (tbl : List Str) : List (Str × Nat) :=
  tbl.enum.foldl (fun m p => (p.2, p.1) :: m) []

/-- Embeds the `strings[..]` index operation of `main`: lookup of a key
that is always present (the default 0 is never reached on pipeline inputs). -/
def stringsGet (m : List (Str × Nat)) (k : Str) : Nat :=
  (hmLookup m k).getD 0

/-- Embeds `profile::ValueType`, keeping the two string-table indices the
program sets. The `usize → i64` casts in the source are value-preserving
for table indices, so the indices are kept as `Nat`. -/
structure ValueType where
  field_type : Nat
  unit : Nat
deriving DecidableEq

/-- Embeds `profile::Function`, keeping the fields the program sets
(`id`, `name`, `system_name`, `filename`). Indices are `Nat` (see
`ValueType`). -/
structure Function where
  id : Nat
  name : Nat
  system_name : Nat
  filename : Nat
deriving DecidableEq

/-- Embeds `profile::Line`, keeping the fields the program sets. -/
structure Line where
  function_id : Nat
  line : Int
deriving DecidableEq

/-- Embeds `profile::Location`, keeping the fields the program sets. -/
structure Location where
  id : Nat
  line : List Line
deriving DecidableEq

/-- Embeds `profile::Sample`, keeping the fields the program sets
(`label` is always empty and omitted). `value` holds `i64` values. -/
structure Sample where
  location_id : List Nat
  value : List Int
deriving DecidableEq

/-- Embeds `profile::Profile`, keeping the fields the program sets. -/
structure Profile where
  sample_type : List ValueType
  sample : List Sample
  string_table : List Str
  function : List Function
  location : List Location
  period_type : Option ValueType
  period : Int
deriving DecidableEq

/-- Two's-complement interpretation of a `Nat` as an `i64`
(the semantics of Rust's `as i64` cast on a `u64`). -/
def toI64 (n : Nat) : Int :=
  if n % 2 ^ 64 < 2 ^ 63 then ((n % 2 ^ 64 : Nat) : Int)
  else ((n % 2 ^ 64 : Nat) : Int) - 2 ^ 64

/-- Two's-complement reduction of an `Int` into the `i64` range (the
release-mode wrapping semantics of `i64` arithmetic). -/
def wrapI64 (z : Int) : Int :=
  if Int.emod z (2 ^ 64) < 2 ^ 63 then Int.emod z (2 ^ 64)
  else Int.emod z (2 ^ 64) - 2 ^ 64

/-- Embeds the sample `value` vector of `main`:
`vec![*cycles as i64, *cycles as i64 * 1_000_000_000 / FREQUENCY as i64]`,
with the multiplication wrapping in `i64` and the division truncating
toward zero. -/
def sampleValues (cycles : Nat) : List Int :=
  [toI64 cycles, Int.tdiv (wrapI64 (toI64 cycles * 1000000000)) (toI64 FREQUENCY)]

/-- The mutable registry state of the sample-building loop in `main`:
`samples`, `loc_tbl`, `fn_tbl` and the `functions` name→id map. -/
structure RegState where
  samples : List Sample
  locTbl : List Location
  fnTbl : List Function
  functions : List (Str × Nat)
deriving DecidableEq

/-- The `Function` record `main` creates for a newly seen symbol name. -/
def mkFunction (strings : List (Str × Nat)) (fid : Nat) (sym : Symbol) : Function :=
  { id := fid
  , name := stringsGet strings sym.dispName
  , system_name := stringsGet strings sym.dispName
  , filename := stringsGet strings sym.dispFile }

/-- The `Location` record `main` creates alongside each new `Function`:
same id, a single synthetic line with line number 0. -/
def mkLocation (fid : Nat) : Location :=
  { id := fid, line := [{ function_id := fid, line := 0 }] }

/-- Embeds the body of the inner `for symbol in stack` loop of `main`:
reuse the registered id if the display name is known, otherwise create a
`Function`/`Location` pair with the next id and register the name; in both
cases push the id onto the current frame's `locs`. -/
def processSymbol (strings : List (Str × Nat)) (acc : RegState × List Nat)
    (sym : Symbol) : RegState × List Nat :=
  let st := acc.1
  let locs := acc.2
  match hmLookup st.functions sym.dispName with
  | some fid => (st, locs ++ [fid])
  | none =>
    let fid := st.fnTbl.length + 1
    ({ samples := st.samples
     , locTbl := st.locTbl ++ [mkLocation fid]
     , fnTbl := st.fnTbl ++ [mkFunction strings fid sym]
     , functions := (sym.dispName, fid) :: st.functions }, locs ++ [fid])

/-- Embeds one iteration of the outer `for Frame { stack, cycles }` loop of
`main`: process the stack, then push a `Sample` with the collected ids and
the two-element value vector. -/
def processFrame (strings : List (Str × Nat)) (st : RegState) (f : Frame) : RegState :=
  let res := f.stack.foldl (processSymbol strings) (st, [])
  { res.1 with
    samples := res.1.samples ++ [{ location_id := res.2, value := sampleValues f.cycles }] }

/-- The empty registry state at the start of the sample-building loop. -/
def initState : RegState :=
  { samples := [], locTbl := [], fnTbl := [], functions := [] }

/-- Embeds the profile assembly of `main`: the two value types, the
samples, the string table, the function and location tables, the period
type and the period `1_000_000_000 / FREQUENCY as i64`. -/
def buildProfile (frames : List Frame) : Profile :=
  let tbl := strTbl frames
  let strings := buildStrings tbl
  let st := frames.foldl (processFrame strings) initState
  let samples_value : ValueType :=
    { field_type := stringsGet strings SAMPLES, unit := stringsGet strings COUNT }
  let time_value : ValueType :=
    { field_type := stringsGet strings CPU, unit := stringsGet strings NANOSECONDS }
  { sample_type := [samples_value, time_value]
  , sample := st.samples
  , string_table := tbl
  , function := st.fnTbl
  , location := st.locTbl
  , period_type := some time_value
  , period := Int.tdiv 1000000000 (toI64 FREQUENCY) }

/-- The whole pipeline of `main` short of I/O: parse every input line,
then assemble the profile. A parse failure aborts the run with the
corresponding panic message and no profile (hence no output artifact). -/
def convert (lines : List Str) : Except String Profile :=
  match parseAll lines with
  | Except.error e => Except.error e
  | Except.ok frames => Except.ok (buildProfile frames)

/-- Projection used to state facts about failing runs. -/
def errMsg? {α : Type} : Except String α → Option String
  | Except.error e => some e
  | Except.ok _ => none

/-- Default `Function` used with `List.getD` in statements. -/
def dfltFn : Function := { id := 0, name := 0, system_name := 0, filename := 0 }

/-- Default `Location` used with `List.getD` in statements. -/
def dfltLoc : Location := { id := 0, line := [] }

/-- Default `Symbol` used with `List.getD` in statements. -/
def dfltSym : Symbol := { name := none, file := none }

/-- Default `ValueType` used with `List.getD` in statements. -/
def dfltVT : ValueType := { field_type := 0, unit := 0 }

/-- The character substitution the specification describes for symbol
names: `<` becomes an opening brace, `>` a closing brace, all other
characters are untouched. -/
def normChar (c : Char) : Char :=
  if c = '<' then '{' else if c = '>' then '}' else c

/-- Registry effect of one symbol on the state (the first component of
`processSymbol`). -/
def stepSt (strings : List (Str × Nat)) (st : RegState) (sym : Symbol) : RegState :=
  match hmLookup st.functions sym.dispName with
  | some _ => st
  | none =>
    { samples := st.samples
    , locTbl := st.locTbl ++ [mkLocation (st.fnTbl.length + 1)]
    , fnTbl := st.fnTbl ++ [mkFunction strings (st.fnTbl.length + 1) sym]
    , functions := (sym.dispName, st.fnTbl.length + 1) :: st.functions }

/-- The id `processSymbol` pushes for one symbol. -/
def stepId (st : RegState) (sym : Symbol) : Nat :=
  match hmLookup st.functions sym.dispName with
  | some fid => fid
  | none => st.fnTbl.length + 1

/-- Registry state after a list of symbols. -/
def runSyms (strings : List (Str × Nat)) (st : RegState) (syms : List Symbol) : RegState :=
  syms.foldl (stepSt strings) st

/-- The ids pushed for a list of symbols, in order. -/
def symsIds (strings : List (Str × Nat)) (st : RegState) : List Symbol → List Nat
  | [] => []
  | sym :: rest => stepId st sym :: symsIds strings (stepSt strings st sym) rest

/-- The samples produced for a list of frames starting from a given
registry state. -/
def samplesList (strings : List (Str × Nat)) (st : RegState) : List Frame → List Sample
  | [] => []
  | f :: fs =>
    { location_id := symsIds strings st f.stack, value := sampleValues f.cycles }
      :: samplesList strings (runSyms strings st f.stack) fs

/-- Replaces the `samples` component of a registry state. -/
def setSamples (st : RegState) (x : List Sample) : RegState :=
  { st with samples := x }

/-- Index of the first occurrence of a string in a list, if any. -/
def idxOf? (n : Str) : List Str → Option Nat
  | [] => none
  | s :: rest => if n = s then some 0 else (idxOf? n rest).map (· + 1)

/-- First-occurrence deduplication relative to an already-seen list. -/
def firstOccAux (seen : List Str) : List Str → List Str
  | [] => []
  | n :: rest =>
    if n ∈ seen then firstOccAux seen rest
    else n :: firstOccAux (seen ++ [n]) rest

/-- First-occurrence deduplication of a list of strings. -/
def firstOccDedup (l : List Str) : List Str := firstOccAux [] l

/-- The symbols that create new registry entries, relative to an
already-seen name list: the first symbol of each not-yet-seen name. -/
def newSyms (seen : List Str) : List Symbol → List Symbol
  | [] => []
  | sym :: rest =>
    if sym.dispName ∈ seen then newSyms seen rest
    else sym :: newSyms (seen ++ [sym.dispName]) rest

/-- The `Function` records created for a list of symbols, relative to an
already-seen name list. -/
def newFns (strings : List (Str × Nat)) (seen : List Str) : List Symbol → List Function
  | [] => []
  | sym :: rest =>
    if sym.dispName ∈ seen then newFns strings seen rest
    else mkFunction strings (seen.length + 1) sym
      :: newFns strings (seen ++ [sym.dispName]) rest

/-- Invariant tying the registry's name→id map to the list of names seen
so far, in first-occurrence order. -/
def RegInv (st : RegState) (seen : List Str) : Prop :=
  st.fnTbl.length = seen.length ∧
    ∀ n, hmLookup st.functions n = (idxOf? n seen).map (· + 1)

/-- Association-list form of the `strings` index map: entry `(s, i)` for
each table element, later (higher-index) entries first. -/
def pairsFrom (i : Nat) : List Str → List (Str × Nat)
  | [] => []
  | s :: rest => pairsFrom (i + 1) rest ++ [(s, i)]

/-- Concrete one-symbol frame used to instantiate universally quantified
theorems at a specific input. -/
def frameA (c : Nat) : Frame :=
  { stack := [{ name := some ['a'], file := none }], cycles := c }

/-- Concrete frames used to instantiate theorems at scenario E
(two lines sharing the name `foo` under different files). -/
def framesE : List Frame :=
  [ { stack := [ { name := some ['x'], file := none }
               , { name := some "foo".toList, file := some "a.c".toList } ]
    , cycles := 1 }
  , { stack := [ { name := some ['y'], file := none }
               , { name := some "foo".toList, file := some "b.c".toList } ]
    , cycles := 1 } ]

/-- One symbol's contribution to the dedup set. -/
def symStep (a : List Str) (sym : Symbol) : List Str :=
  hsInsert (hsInsert a sym.dispName) sym.dispFile

/-! Lemmas about the string set (`hsInsert`, `collectStrings`). -/

theorem mem_hsInsert {l : List Str} {s x : Str} :
    x ∈ hsInsert l s ↔ x ∈ l ∨ x = s := by
  unfold hsInsert
  by_cases h : s ∈ l
  · rw [if_pos h]
    constructor
    · exact Or.inl
    · rintro (hx | rfl)
      · exact hx
      · exact h
  · rw [if_neg h]
    simp [List.mem_append]

theorem hsInsert_nodup {l : List Str} {s : Str} (h : l.Nodup) :
    (hsInsert l s).Nodup := by
  unfold hsInsert
  by_cases hs : s ∈ l <;> simp [hs, List.nodup_append, h]

theorem mem_hsInsert_self {l : List Str} {s : Str} : s ∈ hsInsert l s := by
  exact mem_hsInsert.mpr (Or.inr rfl)

theorem mem_hsInsert_of_mem {l : List Str} {s x : Str} (h : x ∈ l) :
    x ∈ hsInsert l s := mem_hsInsert.mpr (Or.inl h)

theorem symFold_nodup (syms : List Symbol) :
    ∀ a : List Str, a.Nodup → (syms.foldl symStep a).Nodup := by
  induction syms with
  | nil => intro a ha; exact ha
  | cons sym rest ih =>
    intro a ha
    exact ih _ (hsInsert_nodup (hsInsert_nodup ha))

theorem mem_symFold (syms : List Symbol) :
    ∀ (a : List Str) (x : Str),
      x ∈ syms.foldl symStep a ↔
        x ∈ a ∨ ∃ sym ∈ syms, x = sym.dispName ∨ x = sym.dispFile := by
  induction syms with
  | nil => intro a x; simp
  | cons sym rest ih =>
    intro a x
    rw [List.foldl_cons, ih]
    unfold symStep
    rw [mem_hsInsert, mem_hsInsert]
    simp only [List.mem_cons]
    constructor
    · rintro (((hx | hx) | hx) | ⟨s, hs, hx⟩)
      · exact Or.inl hx
      · exact Or.inr ⟨sym, Or.inl rfl, Or.inl hx⟩
      · exact Or.inr ⟨sym, Or.inl rfl, Or.inr hx⟩
      · exact Or.inr ⟨s, Or.inr hs, hx⟩
    · rintro (hx | ⟨s, (hs | hs), hx⟩)
      · exact Or.inl (Or.inl (Or.inl hx))
      · subst hs
        rcases hx with hx | hx
        · exact Or.inl (Or.inl (Or.inr hx))
        · exact Or.inl (Or.inr hx)
      · exact Or.inr ⟨s, hs, hx⟩

theorem frameFold_eq_symFold (frames : List Frame) :
    ∀ a : List Str,
      frames.foldl (fun acc f => f.stack.foldl symStep acc) a =
        (frames.flatMap Frame.stack).foldl symStep a := by
  induction frames with
  | nil => intro a; simp
  | cons f rest ih =>
    intro a
    rw [List.foldl_cons, ih, List.flatMap_cons, List.foldl_append]

theorem collectStrings_eq (frames : List Frame) :
    collectStrings frames =
      hsInsert (hsInsert (hsInsert (hsInsert
        ((frames.flatMap Frame.stack).foldl symStep []) SAMPLES) COUNT) CPU)
        NANOSECONDS := by
  unfold collectStrings
  rw [show (fun (acc : List Str) (f : Frame) => f.stack.foldl
      (fun a sym => hsInsert (hsInsert a sym.dispName) sym.dispFile) acc) =
      (fun acc f => f.stack.foldl symStep acc) from rfl]
  rw [frameFold_eq_symFold]

theorem collectStrings_nodup (frames : List Frame) :
    (collectStrings frames).Nodup := by
  rw [collectStrings_eq]
  exact hsInsert_nodup (hsInsert_nodup (hsInsert_nodup (hsInsert_nodup
    (symFold_nodup _ _ List.nodup_nil))))

theorem mem_collectStrings (frames : List Frame) (x : Str) :
    x ∈ collectStrings frames ↔
      (∃ sym ∈ frames.flatMap Frame.stack, x = sym.dispName ∨ x = sym.dispFile) ∨
        x = SAMPLES ∨ x = COUNT ∨ x = CPU ∨ x = NANOSECONDS := by
  rw [collectStrings_eq, mem_hsInsert, mem_hsInsert, mem_hsInsert, mem_hsInsert,
    mem_symFold]
  simp only [List.not_mem_nil, false_or]
  constructor
  · rintro ((((hA | hS) | hC) | hP) | hN)
    · exact Or.inl hA
    · exact Or.inr (Or.inl hS)
    · exact Or.inr (Or.inr (Or.inl hC))
    · exact Or.inr (Or.inr (Or.inr (Or.inl hP)))
    · exact Or.inr (Or.inr (Or.inr (Or.inr hN)))
  · rintro (hA | hS | hC | hP | hN)
    · exact Or.inl (Or.inl (Or.inl (Or.inl hA)))
    · exact Or.inl (Or.inl (Or.inl (Or.inr hS)))
    · exact Or.inl (Or.inl (Or.inr hC))
    · exact Or.inl (Or.inr hP)
    · exact Or.inr hN

theorem labels_mem_collectStrings (frames : List Frame) :
    SAMPLES ∈ collectStrings frames ∧ COUNT ∈ collectStrings frames ∧
      CPU ∈ collectStrings frames ∧ NANOSECONDS ∈ collectStrings frames := by
  refine ⟨?_, ?_, ?_, ?_⟩ <;> rw [mem_collectStrings] <;> tauto

theorem sym_mem_collectStrings {frames : List Frame} {sym : Symbol}
    (h : sym ∈ frames.flatMap Frame.stack) :
    sym.dispName ∈ collectStrings frames ∧ sym.dispFile ∈ collectStrings frames := by
  constructor <;> rw [mem_collectStrings]
  · exact Or.inl ⟨sym, h, Or.inl rfl⟩
  · exact Or.inl ⟨sym, h, Or.inr rfl⟩

/-! Lemmas about the string index map (`buildStrings`). -/

theorem buildStrings_eq_pairsFrom (tbl : List Str) :
    buildStrings tbl = pairsFrom 0 tbl := by
  have key : ∀ (l : List Str) (i : Nat) (m : List (Str × Nat)),
      (List.enumFrom i l).foldl (fun m p => (p.2, p.1) :: m) m = pairsFrom i l ++ m := by
    intro l
    induction l with
    | nil => intro i m; simp [pairsFrom]
    | cons s rest ih =>
      intro i m
      rw [List.enumFrom_cons, List.foldl_cons, ih]
      simp [pairsFrom]
  unfold buildStrings
  rw [List.enum_eq_enumFrom, key, List.append_nil]

theorem hmLookup_append (xs ys : List (Str × Nat)) (k : Str) :
    hmLookup (xs ++ ys) k =
      match hmLookup xs k with
      | some v => some v
      | none => hmLookup ys k := by
  induction xs with
  | nil => simp [hmLookup]
  | cons p rest ih =>
    rcases p with ⟨a, b⟩
    by_cases h : k = a <;> simp [hmLookup, h, ih]

theorem pairsFrom_lookup_sound (l : List Str) :
    ∀ (i k : Nat) (n : Str), hmLookup (pairsFrom i l) n = some k →
      i ≤ k ∧ k - i < l.length ∧ l.getD (k - i) [] = n := by
  induction l with
  | nil => intro i k n h; simp [pairsFrom, hmLookup] at h
  | cons s rest ih =>
    intro i k n h
    rw [pairsFrom, hmLookup_append] at h
    rcases hfst : hmLookup (pairsFrom (i + 1) rest) n with _ | j
    · rw [hfst] at h
      simp only [hmLookup] at h
      by_cases hn : n = s
      · simp only [hn, if_pos rfl] at h
        obtain rfl : i = k := Option.some.inj h
        refine ⟨Nat.le_refl _, by simp, ?_⟩
        simp [Nat.sub_self, hn]
      · simp [hn] at h
    · rw [hfst] at h
      have hjk : j = k := Option.some.inj h
      rw [hjk] at hfst
      obtain ⟨hik, hlen, hget⟩ := ih (i + 1) k n hfst
      refine ⟨Nat.le_of_succ_le hik, ?_, ?_⟩
      · simp only [List.length_cons]
        omega
      · have hk : k - i = (k - (i + 1)) + 1 := by omega
        rw [hk]
        simpa using hget

theorem pairsFrom_lookup_exists {l : List Str} {n : Str} (h : n ∈ l) :
    ∀ i : Nat, ∃ k, hmLookup (pairsFrom i l) n = some k := by
  induction l with
  | nil => cases h
  | cons s rest ih =>
    intro i
    rcases List.mem_cons.mp h with hs | hmem
    · rw [pairsFrom, hmLookup_append]
      rcases hfst : hmLookup (pairsFrom (i + 1) rest) n with _ | j
      · exact ⟨i, by simp [hmLookup, hs]⟩
      · exact ⟨j, rfl⟩
    · obtain ⟨k, hk⟩ := ih hmem (i + 1)
      rw [pairsFrom, hmLookup_append, hk]
      exact ⟨k, rfl⟩

theorem stringsGet_sound {tbl : List Str} {n : Str} (h : n ∈ tbl) :
    stringsGet (buildStrings tbl) n < tbl.length ∧
      tbl.getD (stringsGet (buildStrings tbl) n) [] = n := by
  obtain ⟨k, hk⟩ := pairsFrom_lookup_exists h 0
  have hs := pairsFrom_lookup_sound tbl 0 k n hk
  unfold stringsGet
  rw [buildStrings_eq_pairsFrom, hk]
  simp only [Option.getD_some]
  exact ⟨by simpa using hs.2.1, by simpa using hs.2.2⟩

/-! Decomposition of the sample-building loop. -/

theorem processSymbol_eq (strings : List (Str × Nat)) (st : RegState)
    (locs : List Nat) (sym : Symbol) :
    processSymbol strings (st, locs) sym =
      (stepSt strings st sym, locs ++ [stepId st sym]) := by
  unfold processSymbol stepSt stepId
  rcases h : hmLookup st.functions sym.dispName with _ | fid <;> simp [h]

theorem runSyms_nil (strings : List (Str × Nat)) (st : RegState) :
    runSyms strings st [] = st := rfl

theorem runSyms_cons (strings : List (Str × Nat)) (st : RegState) (sym : Symbol)
    (rest : List Symbol) :
    runSyms strings st (sym :: rest) = runSyms strings (stepSt strings st sym) rest := rfl

theorem symsIds_cons (strings : List (Str × Nat)) (st : RegState) (sym : Symbol)
    (rest : List Symbol) :
    symsIds strings st (sym :: rest) =
      stepId st sym :: symsIds strings (stepSt strings st sym) rest := rfl

theorem samplesList_cons (strings : List (Str × Nat)) (st : RegState) (f : Frame)
    (fs : List Frame) :
    samplesList strings st (f :: fs) =
      { location_id := symsIds strings st f.stack, value := sampleValues f.cycles }
        :: samplesList strings (runSyms strings st f.stack) fs := rfl

theorem foldl_processSymbol (strings : List (Str × Nat)) (syms : List Symbol) :
    ∀ (st : RegState) (locs : List Nat),
      syms.foldl (processSymbol strings) (st, locs) =
        (runSyms strings st syms, locs ++ symsIds strings st syms) := by
  induction syms with
  | nil => intro st locs; simp [runSyms, symsIds]
  | cons sym rest ih =>
    intro st locs
    rw [List.foldl_cons, processSymbol_eq, ih, runSyms_cons, symsIds_cons,
      List.append_assoc, List.singleton_append]

theorem stepSt_samples (strings : List (Str × Nat)) (st : RegState) (sym : Symbol) :
    (stepSt strings st sym).samples = st.samples := by
  unfold stepSt
  rcases h : hmLookup st.functions sym.dispName with _ | fid <;> simp

theorem runSyms_samples (strings : List (Str × Nat)) (syms : List Symbol) :
    ∀ st : RegState, (runSyms strings st syms).samples = st.samples := by
  induction syms with
  | nil => intro st; rfl
  | cons sym rest ih =>
    intro st
    unfold runSyms
    rw [List.foldl_cons]
    exact (ih (stepSt strings st sym)).trans (stepSt_samples strings st sym)

theorem processFrame_eq (strings : List (Str × Nat)) (st : RegState) (f : Frame) :
    processFrame strings st f =
      setSamples (runSyms strings st f.stack)
        (st.samples ++
          [{ location_id := symsIds strings st f.stack
           , value := sampleValues f.cycles }]) := by
  unfold processFrame setSamples
  rw [foldl_processSymbol]
  simp [runSyms_samples]

theorem stepSt_setSamples (strings : List (Str × Nat)) (st : RegState)
    (x : List Sample) (sym : Symbol) :
    stepSt strings (setSamples st x) sym = setSamples (stepSt strings st sym) x := by
  unfold stepSt setSamples
  rcases h : hmLookup st.functions sym.dispName with _ | fid <;> simp [h]

theorem stepId_setSamples (st : RegState) (x : List Sample) (sym : Symbol) :
    stepId (setSamples st x) sym = stepId st sym := by
  unfold stepId setSamples
  rcases h : hmLookup st.functions sym.dispName with _ | fid <;> simp [h]

theorem runSyms_setSamples (strings : List (Str × Nat)) (syms : List Symbol) :
    ∀ (st : RegState) (x : List Sample),
      runSyms strings (setSamples st x) syms = setSamples (runSyms strings st syms) x := by
  induction syms with
  | nil => intro st x; rfl
  | cons sym rest ih =>
    intro st x
    unfold runSyms
    rw [List.foldl_cons, stepSt_setSamples]
    exact ih (stepSt strings st sym) x

theorem symsIds_setSamples (strings : List (Str × Nat)) (syms : List Symbol) :
    ∀ (st : RegState) (x : List Sample),
      symsIds strings (setSamples st x) syms = symsIds strings st syms := by
  induction syms with
  | nil => intro st x; rfl
  | cons sym rest ih =>
    intro st x
    unfold symsIds
    rw [stepId_setSamples, stepSt_setSamples, ih]

theorem samplesList_setSamples (strings : List (Str × Nat)) (frames : List Frame) :
    ∀ (st : RegState) (x : List Sample),
      samplesList strings (setSamples st x) frames = samplesList strings st frames := by
  induction frames with
  | nil => intro st x; rfl
  | cons f fs ih =>
    intro st x
    unfold samplesList
    rw [symsIds_setSamples, runSyms_setSamples, ih]

theorem setSamples_setSamples (st : RegState) (x y : List Sample) :
    setSamples (setSamples st x) y = setSamples st y := rfl

theorem setSamples_samples (st : RegState) : setSamples st st.samples = st := rfl

theorem runSyms_append (strings : List (Str × Nat)) (a b : List Symbol)
    (st : RegState) :
    runSyms strings st (a ++ b) = runSyms strings (runSyms strings st a) b := by
  simp [runSyms, List.foldl_append]

theorem foldl_processFrame (strings : List (Str × Nat)) (frames : List Frame) :
    ∀ st : RegState,
      frames.foldl (processFrame strings) st =
        setSamples (runSyms strings st (frames.flatMap Frame.stack))
          (st.samples ++ samplesList strings st frames) := by
  induction frames with
  | nil =>
    intro st
    simp only [List.foldl_nil, List.flatMap_nil, samplesList, List.append_nil]
    exact (setSamples_samples st).symm
  | cons f fs ih =>
    intro st
    rw [List.foldl_cons, processFrame_eq, ih, runSyms_setSamples,
      samplesList_setSamples, setSamples_setSamples, List.flatMap_cons,
      runSyms_append, samplesList_cons]
    have hsmp : (setSamples (runSyms strings st f.stack)
        (st.samples ++
          [{ location_id := symsIds strings st f.stack
           , value := sampleValues f.cycles }])).samples =
        st.samples ++
          [{ location_id := symsIds strings st f.stack
           , value := sampleValues f.cycles }] := rfl
    rw [hsmp, List.append_assoc, List.singleton_append]

/-- The registry state reached by `buildProfile` on a frame list. -/
theorem buildProfile_fields (frames : List Frame) :
    buildProfile frames =
      { sample_type :=
          [ { field_type := stringsGet (buildStrings (strTbl frames)) SAMPLES
            , unit := stringsGet (buildStrings (strTbl frames)) COUNT }
          , { field_type := stringsGet (buildStrings (strTbl frames)) CPU
            , unit := stringsGet (buildStrings (strTbl frames)) NANOSECONDS } ]
      , sample := samplesList (buildStrings (strTbl frames)) initState frames
      , string_table := strTbl frames
      , function :=
          (runSyms (buildStrings (strTbl frames)) initState
            (frames.flatMap Frame.stack)).fnTbl
      , location :=
          (runSyms (buildStrings (strTbl frames)) initState
            (frames.flatMap Frame.stack)).locTbl
      , period_type :=
          some { field_type := stringsGet (buildStrings (strTbl frames)) CPU
               , unit := stringsGet (buildStrings (strTbl frames)) NANOSECONDS }
      , period := Int.tdiv 1000000000 (toI64 FREQUENCY) } := by
  simp only [buildProfile, foldl_processFrame]
  rfl

/-! Registry invariants: sequential ids, synchronized tables, id ranges. -/

/-- Structural invariant of the registry state: tables have equal length,
the `i`-th function has id `i + 1`, the `i`-th location is the synthetic
location for id `i + 1`, and every registered id is in range. -/
def GoodReg (st : RegState) : Prop :=
  st.locTbl.length = st.fnTbl.length ∧
    (∀ i, i < st.fnTbl.length → (st.fnTbl.getD i dfltFn).id = i + 1) ∧
    (∀ i, i < st.locTbl.length → st.locTbl.getD i dfltLoc = mkLocation (i + 1)) ∧
    (∀ n fid, hmLookup st.functions n = some fid → 1 ≤ fid ∧ fid ≤ st.fnTbl.length)

theorem goodReg_init : GoodReg initState := by
  refine ⟨rfl, ?_, ?_, ?_⟩
  · intro i hi; simp [initState] at hi
  · intro i hi; simp [initState] at hi
  · intro n fid h; simp [initState, hmLookup] at h

theorem getD_append_left {α : Type} (l l' : List α) (d : α) {i : Nat}
    (h : i < l.length) : (l ++ l').getD i d = l.getD i d := by
  rw [List.getD_eq_getElem?_getD, List.getD_eq_getElem?_getD,
    List.getElem?_append_left h]

theorem getD_append_last {α : Type} (l : List α) (x : α) (d : α) :
    (l ++ [x]).getD l.length d = x := by
  rw [List.getD_eq_getElem?_getD, List.getElem?_append_right (Nat.le_refl _)]
  simp

theorem stepSt_good (strings : List (Str × Nat)) (st : RegState) (sym : Symbol)
    (h : GoodReg st) : GoodReg (stepSt strings st sym) := by
  obtain ⟨hlen, hfn, hloc, hmap⟩ := h
  unfold stepSt
  rcases hl : hmLookup st.functions sym.dispName with _ | fid
  · refine ⟨by simp [hlen], ?_, ?_, ?_⟩
    · intro i hi
      simp only [List.length_append, List.length_cons, List.length_nil] at hi
      rcases Nat.lt_or_ge i st.fnTbl.length with hil | hig
      · rw [getD_append_left _ _ _ hil]
        exact hfn i hil
      · have hieq : i = st.fnTbl.length := by omega
        subst hieq
        rw [getD_append_last]
        rfl
    · intro i hi
      simp only [List.length_append, List.length_cons, List.length_nil] at hi
      rcases Nat.lt_or_ge i st.locTbl.length with hil | hig
      · rw [getD_append_left _ _ _ hil]
        exact hloc i hil
      · have hieq : i = st.locTbl.length := by omega
        subst hieq
        have : st.locTbl.length = st.fnTbl.length := hlen
        rw [getD_append_last, this]
    · intro n fid h
      simp only [hmLookup] at h
      by_cases hn : n = sym.dispName
      · rw [if_pos hn] at h
        have : st.fnTbl.length + 1 = fid := Option.some.inj h
        simp only [List.length_append, List.length_cons, List.length_nil]
        omega
      · rw [if_neg hn] at h
        have := hmap n fid h
        simp only [List.length_append, List.length_cons, List.length_nil]
        omega
  · exact ⟨hlen, hfn, hloc, hmap⟩

theorem runSyms_good (strings : List (Str × Nat)) (syms : List Symbol) :
    ∀ st : RegState, GoodReg st → GoodReg (runSyms strings st syms) := by
  induction syms with
  | nil => intro st h; exact h
  | cons sym rest ih =>
    intro st h
    rw [runSyms_cons]
    exact ih _ (stepSt_good strings st sym h)

theorem stepSt_fnTbl_mono (strings : List (Str × Nat)) (st : RegState) (sym : Symbol) :
    st.fnTbl.length ≤ (stepSt strings st sym).fnTbl.length := by
  unfold stepSt
  rcases hl : hmLookup st.functions sym.dispName with _ | fid <;> simp

theorem runSyms_fnTbl_mono (strings : List (Str × Nat)) (syms : List Symbol) :
    ∀ st : RegState, st.fnTbl.length ≤ (runSyms strings st syms).fnTbl.length := by
  induction syms with
  | nil => intro st; exact Nat.le_refl _
  | cons sym rest ih =>
    intro st
    rw [runSyms_cons]
    exact Nat.le_trans (stepSt_fnTbl_mono strings st sym) (ih _)

theorem symsIds_range (strings : List (Str × Nat)) (syms : List Symbol) :
    ∀ st : RegState, GoodReg st → ∀ id ∈ symsIds strings st syms,
      1 ≤ id ∧ id ≤ (runSyms strings st syms).fnTbl.length := by
  induction syms with
  | nil => intro st _ id h; cases h
  | cons sym rest ih =>
    intro st hg id h
    rw [symsIds_cons] at h
    rw [runSyms_cons]
    rcases List.mem_cons.mp h with hid | hid
    · subst hid
      unfold stepId
      rcases hl : hmLookup st.functions sym.dispName with _ | fid
      · constructor
        · exact Nat.le_add_left 1 _
        · refine Nat.le_trans ?_ (runSyms_fnTbl_mono strings rest (stepSt strings st sym))
          unfold stepSt
          rw [hl]
          simp
      · obtain ⟨h1, h2⟩ := hg.2.2.2 sym.dispName fid hl
        refine ⟨h1, Nat.le_trans h2 ?_⟩
        exact Nat.le_trans (stepSt_fnTbl_mono strings st sym)
          (runSyms_fnTbl_mono strings rest (stepSt strings st sym))
    · exact ih (stepSt strings st sym) (stepSt_good strings st sym hg) id hid

theorem samplesList_ids_range (strings : List (Str × Nat)) (frames : List Frame) :
    ∀ st : RegState, GoodReg st → ∀ s ∈ samplesList strings st frames, ∀ id ∈ s.location_id,
      1 ≤ id ∧ id ≤ (runSyms strings st (frames.flatMap Frame.stack)).fnTbl.length := by
  induction frames with
  | nil => intro st _ s h; cases h
  | cons f fs ih =>
    intro st hg s hs id hid
    rw [samplesList_cons] at hs
    rw [List.flatMap_cons, runSyms_append]
    rcases List.mem_cons.mp hs with hs0 | hs'
    · subst hs0
      simp only at hid
      obtain ⟨h1, h2⟩ := symsIds_range strings f.stack st hg id hid
      exact ⟨h1, Nat.le_trans h2 (runSyms_fnTbl_mono strings _ _)⟩
    · exact ih (runSyms strings st f.stack)
        (runSyms_good strings f.stack st hg) s hs' id hid

/-! Counting lemmas: a list whose `i`-th key is `base + i + 1` has exactly
one entry with key `id` for `id` in range, none out of range. -/

theorem filter_key_len_zero {α : Type} (key : α → Nat) (d : α) :
    ∀ (l : List α) (base id : Nat),
      (∀ i, i < l.length → key (l.getD i d) = base + i + 1) →
      id ≤ base → (l.filter (fun x => decide (key x = id))).length = 0 := by
  intro l
  induction l with
  | nil => intro base id _ _; rfl
  | cons a rest ih =>
    intro base id hkey hid
    have h0 : key a = base + 1 := by
      have := hkey 0 (by simp)
      simpa using this
    have hrest : ∀ i, i < rest.length → key (rest.getD i d) = (base + 1) + i + 1 := by
      intro i hi
      have := hkey (i + 1) (by simpa using Nat.succ_lt_succ hi)
      simp only [List.getD_cons_succ] at this
      omega
    rw [List.filter_cons]
    have hne : (decide (key a = id)) = false := by
      simp only [decide_eq_false_iff_not]
      omega
    rw [hne]
    simp only [if_neg Bool.false_ne_true]
    exact ih (base + 1) id hrest (by omega)

theorem filter_key_len_one {α : Type} (key : α → Nat) (d : α) :
    ∀ (l : List α) (base id : Nat),
      (∀ i, i < l.length → key (l.getD i d) = base + i + 1) →
      base + 1 ≤ id → id ≤ base + l.length →
      (l.filter (fun x => decide (key x = id))).length = 1 := by
  intro l
  induction l with
  | nil => intro base id _ h1 h2; simp at h2; omega
  | cons a rest ih =>
    intro base id hkey h1 h2
    have h0 : key a = base + 1 := by
      have := hkey 0 (by simp)
      simpa using this
    have hrest : ∀ i, i < rest.length → key (rest.getD i d) = (base + 1) + i + 1 := by
      intro i hi
      have := hkey (i + 1) (by simpa using Nat.succ_lt_succ hi)
      simp only [List.getD_cons_succ] at this
      omega
    by_cases hid : id = base + 1
    · have ht : (decide (key a = id)) = true := by
        simp only [decide_eq_true_eq]
        omega
      rw [List.filter_cons, ht]
      simp only [if_true, List.length_cons]
      have := filter_key_len_zero key d rest (base + 1) id hrest (by omega)
      omega
    · have hf : (decide (key a = id)) = false := by
        simp only [decide_eq_false_iff_not]
        omega
      rw [List.filter_cons, hf]
      simp only [if_neg Bool.false_ne_true]
      refine ih (base + 1) id hrest (by omega) ?_
      simp only [List.length_cons] at h2
      omega

/-! First-occurrence characterization of the function registry. -/

theorem idxOf?_eq_none {n : Str} : ∀ {l : List Str}, idxOf? n l = none ↔ n ∉ l := by
  intro l
  induction l with
  | nil => simp [idxOf?]
  | cons s rest ih =>
    unfold idxOf?
    by_cases h : n = s
    · simp [h]
    · rw [if_neg h]
      constructor
      · intro hm hc
        rcases hi : idxOf? n rest with _ | j
        · rcases List.mem_cons.mp hc with hc' | hc'
          · exact h hc'
          · exact (ih.mp hi) hc'
        · rw [hi] at hm
          simp at hm
      · intro hm
        have hnr : n ∉ rest := fun hc => hm (List.mem_cons_of_mem _ hc)
        rw [ih.mpr hnr]
        rfl

theorem idxOf?_append_self {n : Str} : ∀ {seen : List Str}, n ∉ seen →
    idxOf? n (seen ++ [n]) = some seen.length := by
  intro seen
  induction seen with
  | nil => simp [idxOf?]
  | cons s rest ih =>
    intro h
    have hns : n ≠ s := fun he => h (he ▸ List.mem_cons_self s rest)
    have hnr : n ∉ rest := fun hm => h (List.mem_cons_of_mem s hm)
    rw [List.cons_append]
    unfold idxOf?
    rw [if_neg hns, ih hnr]
    rfl

theorem idxOf?_append_ne {n' n : Str} (h : n' ≠ n) : ∀ seen : List Str,
    idxOf? n' (seen ++ [n]) = idxOf? n' seen := by
  intro seen
  induction seen with
  | nil =>
    simp only [List.nil_append, idxOf?, if_neg h]
    rfl
  | cons s rest ih =>
    rw [List.cons_append]
    unfold idxOf?
    rw [ih]

theorem regInv_init : RegInv initState [] := by
  constructor
  · rfl
  · intro n
    rfl

theorem stepSt_of_seen {strings : List (Str × Nat)} {st : RegState} {sym : Symbol}
    {seen : List Str} (hinv : RegInv st seen) (h : sym.dispName ∈ seen) :
    stepSt strings st sym = st := by
  unfold stepSt
  rcases hl : hmLookup st.functions sym.dispName with _ | fid
  · exfalso
    have hv := hinv.2 sym.dispName
    rw [hl] at hv
    have hnone : idxOf? sym.dispName seen = none := by
      rcases hi : idxOf? sym.dispName seen with _ | j
      · rfl
      · rw [hi] at hv
        simp at hv
    exact (idxOf?_eq_none.mp hnone) h
  · rfl

theorem stepId_of_lookup {st : RegState} {sym : Symbol} {fid : Nat}
    (h : hmLookup st.functions sym.dispName = some fid) : stepId st sym = fid := by
  unfold stepId
  rw [h]

theorem stepSt_fnTbl_of_none {strings : List (Str × Nat)} {st : RegState} {sym : Symbol}
    (h : hmLookup st.functions sym.dispName = none) :
    (stepSt strings st sym).fnTbl =
      st.fnTbl ++ [mkFunction strings (st.fnTbl.length + 1) sym] := by
  unfold stepSt
  rw [h]

theorem stepSt_functions_of_none {strings : List (Str × Nat)} {st : RegState}
    {sym : Symbol} (h : hmLookup st.functions sym.dispName = none) :
    (stepSt strings st sym).functions =
      (sym.dispName, st.fnTbl.length + 1) :: st.functions := by
  unfold stepSt
  rw [h]

theorem newFns_nil (strings : List (Str × Nat)) (seen : List Str) :
    newFns strings seen [] = [] := rfl

theorem newFns_cons (strings : List (Str × Nat)) (seen : List Str) (sym : Symbol)
    (rest : List Symbol) :
    newFns strings seen (sym :: rest) =
      if sym.dispName ∈ seen then newFns strings seen rest
      else mkFunction strings (seen.length + 1) sym
        :: newFns strings (seen ++ [sym.dispName]) rest := rfl

theorem newSyms_nil (seen : List Str) : newSyms seen [] = [] := rfl

theorem newSyms_cons (seen : List Str) (sym : Symbol) (rest : List Symbol) :
    newSyms seen (sym :: rest) =
      if sym.dispName ∈ seen then newSyms seen rest
      else sym :: newSyms (seen ++ [sym.dispName]) rest := rfl

theorem runSyms_spec (strings : List (Str × Nat)) : ∀ (syms : List Symbol)
    (st : RegState) (seen : List Str), RegInv st seen →
      (runSyms strings st syms).fnTbl = st.fnTbl ++ newFns strings seen syms ∧
        RegInv (runSyms strings st syms)
          (seen ++ (newSyms seen syms).map Symbol.dispName) := by
  intro syms
  induction syms with
  | nil =>
    intro st seen hinv
    refine ⟨?_, ?_⟩
    · rw [runSyms_nil, newFns_nil, List.append_nil]
    · rw [runSyms_nil, newSyms_nil, List.map_nil, List.append_nil]
      exact hinv
  | cons sym rest ih =>
    intro st seen hinv
    rw [runSyms_cons]
    by_cases hmem : sym.dispName ∈ seen
    · rw [stepSt_of_seen hinv hmem]
      have hres := ih st seen hinv
      rw [newFns_cons, if_pos hmem, newSyms_cons, if_pos hmem]
      exact hres
    · have hlook : hmLookup st.functions sym.dispName = none := by
        have hv := hinv.2 sym.dispName
        rw [idxOf?_eq_none.mpr hmem] at hv
        simpa using hv
      have hinv' : RegInv (stepSt strings st sym) (seen ++ [sym.dispName]) := by
        constructor
        · rw [stepSt_fnTbl_of_none hlook]
          simp [hinv.1]
        · intro m
          rw [stepSt_functions_of_none hlook]
          by_cases hn : m = sym.dispName
          · subst hn
            unfold hmLookup
            rw [if_pos rfl, idxOf?_append_self hmem, hinv.1]
            rfl
          · unfold hmLookup
            rw [if_neg hn, idxOf?_append_ne hn, hinv.2 m]
      obtain ⟨htbl, hinv''⟩ := ih (stepSt strings st sym) (seen ++ [sym.dispName]) hinv'
      constructor
      · rw [htbl, stepSt_fnTbl_of_none hlook]
        rw [newFns_cons, if_neg hmem, hinv.1, List.append_assoc, List.singleton_append]
      · rw [newSyms_cons, if_neg hmem]
        simpa using hinv''

theorem newFns_length (strings : List (Str × Nat)) : ∀ (syms : List Symbol)
    (seen : List Str),
    (newFns strings seen syms).length = (newSyms seen syms).length := by
  intro syms
  induction syms with
  | nil => intro seen; rfl
  | cons sym rest ih =>
    intro seen
    rw [newFns_cons, newSyms_cons]
    by_cases h : sym.dispName ∈ seen <;> simp [h, ih]

theorem firstOccAux_eq_map_newSyms : ∀ (syms : List Symbol) (seen : List Str),
    firstOccAux seen (syms.map Symbol.dispName) = (newSyms seen syms).map Symbol.dispName := by
  intro syms
  induction syms with
  | nil => intro seen; rfl
  | cons sym rest ih =>
    intro seen
    simp only [List.map_cons]
    rw [newSyms_cons]
    by_cases h : sym.dispName ∈ seen
    · rw [firstOccAux, if_pos h, if_pos h, ih]
    · rw [firstOccAux, if_neg h, if_neg h, List.map_cons, ih]

theorem newFns_getD (strings : List (Str × Nat)) : ∀ (syms : List Symbol)
    (seen : List Str) (i : Nat), i < (newSyms seen syms).length →
    (newFns strings seen syms).getD i dfltFn =
      mkFunction strings (seen.length + i + 1) ((newSyms seen syms).getD i dfltSym) := by
  intro syms
  induction syms with
  | nil => intro seen i hi; cases hi
  | cons sym rest ih =>
    intro seen i hi
    by_cases h : sym.dispName ∈ seen
    · rw [newFns_cons, if_pos h, newSyms_cons, if_pos h]
      rw [newSyms_cons, if_pos h] at hi
      exact ih seen i hi
    · rw [newFns_cons, if_neg h, newSyms_cons, if_neg h]
      rw [newSyms_cons, if_neg h] at hi
      rcases i with _ | j
      · simp
      · simp only [List.getD_cons_succ]
        simp only [List.length_cons] at hi
        have hres := ih (seen ++ [sym.dispName]) j (Nat.lt_of_succ_lt_succ hi)
        rw [hres]
        simp only [List.length_append, List.length_cons, List.length_nil]
        congr 1
        omega

theorem newSyms_not_seen : ∀ (syms : List Symbol) (seen : List Str) (sym' : Symbol),
    sym' ∈ newSyms seen syms → sym'.dispName ∉ seen := by
  intro syms
  induction syms with
  | nil => intro seen sym' h; cases h
  | cons sym rest ih =>
    intro seen sym' h
    rw [newSyms_cons] at h
    by_cases hm : sym.dispName ∈ seen
    · rw [if_pos hm] at h
      exact ih seen sym' h
    · rw [if_neg hm] at h
      rcases List.mem_cons.mp h with h0 | h'
      · subst h0
        exact hm
      · have hres := ih (seen ++ [sym.dispName]) sym' h'
        intro hc
        exact hres (List.mem_append_left _ hc)

theorem newSyms_mem : ∀ (syms : List Symbol) (seen : List Str) (sym' : Symbol),
    sym' ∈ newSyms seen syms → sym' ∈ syms := by
  intro syms
  induction syms with
  | nil => intro seen sym' h; cases h
  | cons sym rest ih =>
    intro seen sym' h
    rw [newSyms_cons] at h
    by_cases hm : sym.dispName ∈ seen
    · rw [if_pos hm] at h
      exact List.mem_cons_of_mem sym (ih seen sym' h)
    · rw [if_neg hm] at h
      rcases List.mem_cons.mp h with h0 | h'
      · exact h0 ▸ List.mem_cons_self sym rest
      · exact List.mem_cons_of_mem sym (ih _ sym' h')

theorem newSyms_find? : ∀ (syms : List Symbol) (seen : List Str) (i : Nat),
    i < (newSyms seen syms).length →
    syms.find?
        (fun s => decide (s.dispName = ((newSyms seen syms).getD i dfltSym).dispName)) =
      some ((newSyms seen syms).getD i dfltSym) := by
  intro syms
  induction syms with
  | nil => intro seen i hi; cases hi
  | cons sym rest ih =>
    intro seen i hi
    by_cases hm : sym.dispName ∈ seen
    · rw [show newSyms seen (sym :: rest) = newSyms seen rest by
        rw [newSyms_cons, if_pos hm]] at hi ⊢
      have htgt : ((newSyms seen rest).getD i dfltSym).dispName ∉ seen := by
        apply newSyms_not_seen rest seen
        rw [List.getD_eq_getElem?_getD, List.getElem?_eq_getElem hi]
        simpa using List.getElem_mem hi
      have hne : (decide (sym.dispName =
          ((newSyms seen rest).getD i dfltSym).dispName)) = false := by
        simp only [decide_eq_false_iff_not]
        intro he
        exact htgt (he ▸ hm)
      rw [List.find?_cons]
      rw [hne]
      exact ih seen i hi
    · rw [show newSyms seen (sym :: rest) =
          sym :: newSyms (seen ++ [sym.dispName]) rest by
        rw [newSyms_cons, if_neg hm]] at hi ⊢
      rcases i with _ | j
      · simp only [List.getD_cons_zero, List.find?_cons, decide_True]
      · simp only [List.getD_cons_succ]
        simp only [List.length_cons] at hi
        have hj := Nat.lt_of_succ_lt_succ hi
        have htgt : ((newSyms (seen ++ [sym.dispName]) rest).getD j dfltSym).dispName ∉
            seen ++ [sym.dispName] := by
          apply newSyms_not_seen rest (seen ++ [sym.dispName])
          rw [List.getD_eq_getElem?_getD, List.getElem?_eq_getElem hj]
          simpa using List.getElem_mem hj
        have hne : (decide (sym.dispName =
            ((newSyms (seen ++ [sym.dispName]) rest).getD j dfltSym).dispName)) = false := by
          simp only [decide_eq_false_iff_not]
          intro he
          exact htgt (he ▸ List.mem_append_right seen (List.mem_singleton.mpr rfl))
        rw [List.find?_cons, hne]
        exact ih (seen ++ [sym.dispName]) j hj

/-! Parsing lemmas. -/

theorem rfindIdx_eq_none {c : Char} : ∀ {l : Str}, rfindIdx l c = none ↔ c ∉ l := by
  intro l
  induction l with
  | nil => simp [rfindIdx]
  | cons a rest ih =>
    unfold rfindIdx
    rcases h : rfindIdx rest c with _ | j
    · by_cases hac : a = c
      · simp [hac]
      · simp only [if_neg hac, List.mem_cons]
        constructor
        · intro _ hc
          rcases hc with hc | hc
          · exact hac hc.symm
          · exact (ih.mp h) hc
        · intro _
          trivial
    · simp only [List.mem_cons]
      constructor
      · intro hc
        cases hc
      · intro hc
        exfalso
        apply hc
        right
        by_contra hcr
        rw [ih.mpr hcr] at h
        cases h

theorem parseLine_no_space {l : Str} (h : ' ' ∉ l) :
    parseLine l = Except.error "no cycles available!" := by
  unfold parseLine
  rw [rfindIdx_eq_none.mpr h]

theorem parseLine_bad_cycle {l : Str} {i : Nat} (h : rfindIdx l ' ' = some i)
    (hc : parseU64 (l.drop (i + 1)) = none) :
    parseLine l = Except.error "invalid cycle" := by
  simp only [parseLine, h, hc]

theorem parseAll_error_of_mem : ∀ (lines : List Str) (l : Str), l ∈ lines →
    (∃ e, parseLine l = Except.error e) → ∃ e', parseAll lines = Except.error e' := by
  intro lines
  induction lines with
  | nil => intro l h; cases h
  | cons l0 rest ih =>
    intro l hmem ⟨e, he⟩
    rcases List.mem_cons.mp hmem with h0 | h'
    · subst h0
      exact ⟨e, by unfold parseAll; rw [he]⟩
    · unfold parseAll
      rcases h0 : parseLine l0 with e0 | f0
      · exact ⟨e0, rfl⟩
      · obtain ⟨e', he'⟩ := ih l h' ⟨e, he⟩
        rw [he']
        exact ⟨e', rfl⟩

theorem convert_none_of_bad_line {lines : List Str} {l : Str} (hmem : l ∈ lines)
    (h : ∃ e, parseLine l = Except.error e) : (convert lines).toOption = none := by
  obtain ⟨e', he'⟩ := parseAll_error_of_mem lines l hmem h
  unfold convert
  rw [he']
  rfl

/-! Normalization lemmas. -/

theorem listReplaceGo_single (a b : Char) : ∀ (s : Str) (fuel : Nat),
    s.length ≤ fuel →
    listReplaceGo [a] [b] fuel s = s.map (fun c => if c = a then b else c) := by
  intro s
  induction s with
  | nil =>
    intro fuel _
    rcases fuel with _ | f <;> rfl
  | cons c rest ih =>
    intro fuel hlen
    rcases fuel with _ | f
    · simp at hlen
    · unfold listReplaceGo
      have hlen' : rest.length ≤ f := by
        simp only [List.length_cons] at hlen
        omega
      by_cases hca : c = a
      · subst hca
        have hcond : ([c] : Str) ≠ [] ∧ ([c] : Str).isPrefixOf (c :: rest) := by
          refine ⟨by simp, ?_⟩
          simp [List.isPrefixOf]
        rw [if_pos hcond]
        simp only [List.length_cons, List.length_nil, List.drop_succ_cons,
          List.drop_zero, List.singleton_append, ih f hlen', List.map_cons]
        simp
      · have hcond : ¬(([a] : Str) ≠ [] ∧ ([a] : Str).isPrefixOf (c :: rest)) := by
          intro hc
          have h2 := hc.2
          simp [List.isPrefixOf] at h2
          exact hca h2.symm
        rw [if_neg hcond]
        simp only [List.map_cons, if_neg hca]
        rw [ih f hlen']

theorem listReplace_single (a b : Char) (s : Str) :
    listReplace [a] [b] s = s.map (fun c => if c = a then b else c) := by
  unfold listReplace
  exact listReplaceGo_single a b s s.length (Nat.le_refl _)

theorem normalize_eq_map_normChar (s : Str) :
    normalize_function_name s = s.map normChar := by
  unfold normalize_function_name
  rw [listReplace_single, listReplace_single, List.map_map]
  congr 1
  funext c
  unfold normChar
  by_cases h1 : c = '<'
  · subst h1
    simp
  · by_cases h2 : c = '>'
    · subst h2
      simp
    · simp [h1, h2, Function.comp]

theorem parseToken_file_verbatim {t f : Str} (h : (parseToken t).file = some f) :
    f.IsPrefix t := by
  unfold parseToken at h
  rcases hf : t.findIdx? (fun c => c = ':') with _ | j
  · rw [hf] at h
    cases h
  · rw [hf] at h
    simp only at h
    have hft : f = t.take j := (Option.some.inj h).symm
    rw [hft]
    exact List.take_prefix j t

theorem normChar_ne_angle (c : Char) : normChar c ≠ '<' ∧ normChar c ≠ '>' := by
  unfold normChar
  by_cases h1 : c = '<'
  · subst h1
    refine ⟨?_, ?_⟩ <;> simp
  · by_cases h2 : c = '>'
    · subst h2
      refine ⟨?_, ?_⟩ <;> simp
    · rw [if_neg h1, if_neg h2]
      exact ⟨h1, h2⟩

theorem mem_normalize_ne_angle {s : Str} {c : Char}
    (h : c ∈ normalize_function_name s) : c ≠ '<' ∧ c ≠ '>' := by
  rw [normalize_eq_map_normChar] at h
  obtain ⟨x, _, hx⟩ := List.mem_map.mp h
  exact hx ▸ normChar_ne_angle x

theorem parseToken_name_ne_angle (t : Str) {c : Char}
    (h : c ∈ ((parseToken t).name.getD [])) : c ≠ '<' ∧ c ≠ '>' := by
  unfold parseToken at h
  rcases hf : t.findIdx? (fun c => c = ':') with _ | j <;> rw [hf] at h <;>
    simp only [Option.getD_some] at h <;> exact mem_normalize_ne_angle h

/-! Sample value lemmas. -/

theorem samplesList_map_value (strings : List (Str × Nat)) : ∀ (frames : List Frame)
    (st : RegState),
    (samplesList strings st frames).map Sample.value =
      frames.map (fun f => sampleValues f.cycles) := by
  intro frames
  induction frames with
  | nil => intro st; rfl
  | cons f fs ih =>
    intro st
    rw [samplesList_cons, List.map_cons, List.map_cons, ih]

theorem sampleValues_length (c : Nat) : (sampleValues c).length = 2 := rfl

theorem toI64_of_lt {c : Nat} (h : c < 2 ^ 63) : toI64 c = (c : Int) := by
  unfold toI64
  have hm : c % 2 ^ 64 = c := Nat.mod_eq_of_lt (by omega)
  rw [hm, if_pos h]

theorem toI64_FREQUENCY : toI64 FREQUENCY = (1000000000 : Int) := by
  unfold toI64 FREQUENCY
  norm_num

theorem wrapI64_of_nonneg_lt {z : Int} (h0 : 0 ≤ z) (h : z < 2 ^ 63) :
    wrapI64 z = z := by
  unfold wrapI64
  have hm : Int.emod z (2 ^ 64) = z := Int.emod_eq_of_lt h0 (by omega)
  rw [hm, if_pos h]

theorem sampleValues_no_overflow {c : Nat} (h : c * 1000000000 < 2 ^ 63) :
    sampleValues c = [(c : Int), (c : Int)] := by
  have hc : c < 2 ^ 63 := by
    have hle : c ≤ c * 1000000000 := Nat.le_mul_of_pos_right c (by norm_num)
    omega
  unfold sampleValues
  rw [toI64_of_lt hc, toI64_FREQUENCY]
  have hcast : (c : Int) * 1000000000 = ((c * 1000000000 : Nat) : Int) := by
    push_cast
    ring
  rw [hcast, wrapI64_of_nonneg_lt (by positivity) (by exact_mod_cast h)]
  have htdiv : Int.tdiv ((c * 1000000000 : Nat) : Int) ((1000000000 : Nat) : Int) =
      (((c * 1000000000) / 1000000000 : Nat) : Int) := rfl
  have hfreq : ((1000000000 : Nat) : Int) = (1000000000 : Int) := by norm_num
  rw [← hfreq, htdiv, Nat.mul_div_cancel c (by norm_num : 0 < 1000000000)]

/-! Projections of the assembled profile. -/

theorem buildProfile_sample (frames : List Frame) :
    (buildProfile frames).sample =
      samplesList (buildStrings (strTbl frames)) initState frames := by
  rw [buildProfile_fields]

theorem buildProfile_string_table (frames : List Frame) :
    (buildProfile frames).string_table = strTbl frames := by
  rw [buildProfile_fields]

theorem buildProfile_function (frames : List Frame) :
    (buildProfile frames).function =
      (runSyms (buildStrings (strTbl frames)) initState
        (frames.flatMap Frame.stack)).fnTbl := by
  rw [buildProfile_fields]

theorem buildProfile_location (frames : List Frame) :
    (buildProfile frames).location =
      (runSyms (buildStrings (strTbl frames)) initState
        (frames.flatMap Frame.stack)).locTbl := by
  rw [buildProfile_fields]

theorem buildProfile_sample_type (frames : List Frame) :
    (buildProfile frames).sample_type =
      [ { field_type := stringsGet (buildStrings (strTbl frames)) SAMPLES
        , unit := stringsGet (buildStrings (strTbl frames)) COUNT }
      , { field_type := stringsGet (buildStrings (strTbl frames)) CPU
        , unit := stringsGet (buildStrings (strTbl frames)) NANOSECONDS } ] := by
  rw [buildProfile_fields]

theorem buildProfile_period_type (frames : List Frame) :
    (buildProfile frames).period_type =
      some { field_type := stringsGet (buildStrings (strTbl frames)) CPU
           , unit := stringsGet (buildStrings (strTbl frames)) NANOSECONDS } := by
  rw [buildProfile_fields]

theorem buildProfile_period (frames : List Frame) :
    (buildProfile frames).period = Int.tdiv 1000000000 (toI64 FREQUENCY) := by
  rw [buildProfile_fields]

theorem convert_ok {lines : List Str} {p : Profile}
    (h : convert lines = Except.ok p) :
    ∃ frames, parseAll lines = Except.ok frames ∧ p = buildProfile frames := by
  unfold convert at h
  rcases hp : parseAll lines with e | frames
  · rw [hp] at h
    cases h
  · rw [hp] at h
    exact ⟨frames, rfl, (Except.ok.inj h).symm⟩

/-! Claim theorems. -/

/-- C1, counterexample: the claim states that `values[0]` equals the
frame's cycle count as an unsigned 64-bit integer; on the well-formed
input line `a 18446744073709551615` the parsed cycle count is
`2^64 - 1`, yet the emitted sample values are `[-1, -1]` because the
source casts the `u64` to `i64`. -/
theorem claim1_values_counterexample :
    (convert ["a 18446744073709551615".toList]).toOption.map
        (fun p => p.sample.map Sample.value) = some [[-1, -1]] ∧
    parseU64 "18446744073709551615".toList = some 18446744073709551615 ∧
    ((-1 : Int) ≠ (18446744073709551615 : Int)) := by
  refine ⟨by rfl, by rfl, by decide⟩

/-- C1, amended: every emitted Sample has a values vector of length 2;
`values[0]` is the cycle count converted to `i64` by two's complement
(equal to the cycle count whenever it is below `2^63`), and `values[1]`
is `values[0] * 1_000_000_000 / FREQUENCY` computed in wrapping `i64`
arithmetic with truncating division in that operation order; when
`cycles * 1_000_000_000 < 2^63` the vector is exactly
`[cycles, cycles]`. -/
theorem claim1_values_amended (lines : List Str) (frames : List Frame) (p : Profile)
    (hp : parseAll lines = Except.ok frames) (h : convert lines = Except.ok p) :
    p.sample.map Sample.value = frames.map (fun f => sampleValues f.cycles) ∧
    ∀ f ∈ frames, (sampleValues f.cycles).length = 2 ∧
      (sampleValues f.cycles).getD 0 0 = toI64 f.cycles ∧
      (sampleValues f.cycles).getD 1 0 =
        Int.tdiv (wrapI64 (toI64 f.cycles * 1000000000)) (toI64 FREQUENCY) ∧
      (f.cycles * 1000000000 < 2 ^ 63 →
        sampleValues f.cycles = [(f.cycles : Int), (f.cycles : Int)]) := by
  obtain ⟨frames', hp', hpe⟩ := convert_ok h
  rw [hp] at hp'
  obtain rfl : frames = frames' := Except.ok.inj hp'
  subst hpe
  constructor
  · rw [buildProfile_sample, samplesList_map_value]
  · intro f _
    exact ⟨rfl, rfl, rfl, sampleValues_no_overflow⟩

/-- C1, witness: the amended theorem applied to the single input line
`a 5`. -/
theorem claim1_values_witness :
    parseAll ["a 5".toList] =
      Except.ok [{ stack := [{ name := some ['a'], file := none }], cycles := 5 }] ∧
    convert ["a 5".toList] =
      Except.ok (buildProfile
        [{ stack := [{ name := some ['a'], file := none }], cycles := 5 }]) ∧
    (buildProfile
        [{ stack := [{ name := some ['a'], file := none }], cycles := 5 }]).sample.map
        Sample.value =
      ([{ stack := [{ name := some ['a'], file := none }], cycles := 5 }] :
          List Frame).map (fun f => sampleValues f.cycles) := by
  refine ⟨by rfl, by rfl, ?_⟩
  exact (claim1_values_amended ["a 5".toList]
    [{ stack := [{ name := some ['a'], file := none }], cycles := 5 }]
    (buildProfile [{ stack := [{ name := some ['a'], file := none }], cycles := 5 }])
    (by rfl) (by rfl)).1

/-- C2, counterexample: the claim states the assembled string table is
pairwise distinct on every input; on the well-formed input line
`" 0"` (an empty frame name) the table contains the empty string at two
indices, because the empty string is unconditionally prepended and the
collected set also contains it. -/
theorem claim2_table_counterexample :
    (convert [" 0".toList]).toOption.map Profile.string_table =
      some [[], [], "<Unknown>".toList, "samples".toList, "count".toList,
        "cpu".toList, "nanoseconds".toList] ∧
    ¬ ([[], [], "<Unknown>".toList, "samples".toList, "count".toList,
        "cpu".toList, "nanoseconds".toList] : List Str).Nodup := by
  refine ⟨by rfl, by decide⟩

/-- C2, amended: the assembled string table is the empty string followed
by the deduplicated set of all symbol display names, file labels, and the
four fixed labels; the entries after index 0 are pairwise distinct, and
the whole table is pairwise distinct provided no symbol display name or
file label is the empty string. -/
theorem claim2_table_amended (lines : List Str) (frames : List Frame) (p : Profile)
    (hp : parseAll lines = Except.ok frames) (h : convert lines = Except.ok p) :
    p.string_table = [] :: collectStrings frames ∧
    (collectStrings frames).Nodup ∧
    (∀ x : Str, x ∈ collectStrings frames ↔
      (∃ sym ∈ frames.flatMap Frame.stack, x = sym.dispName ∨ x = sym.dispFile) ∨
        x = SAMPLES ∨ x = COUNT ∨ x = CPU ∨ x = NANOSECONDS) ∧
    ([] ∉ collectStrings frames → p.string_table.Nodup) := by
  obtain ⟨frames', hp', hpe⟩ := convert_ok h
  rw [hp] at hp'
  obtain rfl : frames = frames' := Except.ok.inj hp'
  subst hpe
  rw [buildProfile_string_table]
  refine ⟨rfl, collectStrings_nodup frames, mem_collectStrings frames, ?_⟩
  intro hnm
  exact List.nodup_cons.mpr ⟨hnm, collectStrings_nodup frames⟩

/-- C2, witness: the amended theorem applied to the single input line
`a 5`. -/
theorem claim2_table_witness :
    parseAll ["a 5".toList] =
      Except.ok [{ stack := [{ name := some ['a'], file := none }], cycles := 5 }] ∧
    (buildProfile
        [{ stack := [{ name := some ['a'], file := none }], cycles := 5 }]).string_table =
      [] :: collectStrings
        [{ stack := [{ name := some ['a'], file := none }], cycles := 5 }] ∧
    (buildProfile
        [{ stack := [{ name := some ['a'], file := none }], cycles := 5 }]).string_table.Nodup := by
  have hc := claim2_table_amended ["a 5".toList]
    [{ stack := [{ name := some ['a'], file := none }], cycles := 5 }]
    (buildProfile [{ stack := [{ name := some ['a'], file := none }], cycles := 5 }])
    (by rfl) (by rfl)
  exact ⟨by rfl, hc.1, hc.2.2.2 (by decide)⟩

/-- C3: on every successfully converted input the assembled profile's
string table has the empty string at index 0. -/
theorem claim3_string_table_zero (lines : List Str) (p : Profile)
    (h : convert lines = Except.ok p) : p.string_table.getD 0 [] = [] := by
  obtain ⟨frames, _, hpe⟩ := convert_ok h
  subst hpe
  rw [buildProfile_string_table]
  rfl

/-- C3, witness: the theorem applied to the single input line `a 5`. -/
theorem claim3_string_table_zero_witness :
    convert ["a 5".toList] =
      Except.ok (buildProfile
        [{ stack := [{ name := some ['a'], file := none }], cycles := 5 }]) ∧
    (buildProfile
        [{ stack := [{ name := some ['a'], file := none }], cycles := 5 }]).string_table.getD
        0 [] = [] := by
  refine ⟨by rfl, ?_⟩
  exact claim3_string_table_zero ["a 5".toList] _ (by rfl)

/-- C6, counterexample: the claim states the failure message for a line
with no space is `no cycles available`; the source panics with
`no cycles available!` (trailing exclamation mark), so the messages
differ. -/
theorem claim6_errors_counterexample :
    parseLine "onlyaframe".toList = Except.error "no cycles available!" ∧
    "no cycles available!" ≠ "no cycles available" := by
  refine ⟨by rfl, by decide⟩

/-- C6, amended: a line with no space fails with the ParseError message
`no cycles available!` (with the trailing exclamation mark); a line whose
trailing token after the last space does not parse as a non-negative
64-bit integer fails with the ParseError message `invalid cycle`; in both
cases the whole run aborts and produces no profile (hence no output
artifact). -/
theorem claim6_errors_amended :
    (∀ l : Str, ' ' ∉ l → parseLine l = Except.error "no cycles available!") ∧
    (∀ (l : Str) (i : Nat), rfindIdx l ' ' = some i →
      parseU64 (l.drop (i + 1)) = none →
      parseLine l = Except.error "invalid cycle") ∧
    (∀ (lines : List Str) (l : Str), l ∈ lines →
      (∃ e, parseLine l = Except.error e) → (convert lines).toOption = none) := by
  refine ⟨?_, ?_, ?_⟩
  · intro l h
    exact parseLine_no_space h
  · intro l i h hc
    exact parseLine_bad_cycle h hc
  · intro lines l hmem he
    exact convert_none_of_bad_line hmem he

/-- C6, witness: the amended theorem applied to the concrete lines
`onlyaframe` (no space) and `ab cd` (non-numeric trailing token). -/
theorem claim6_errors_witness :
    (' ' ∉ "onlyaframe".toList) ∧
    parseLine "onlyaframe".toList = Except.error "no cycles available!" ∧
    parseLine "ab cd".toList = Except.error "invalid cycle" ∧
    (convert ["onlyaframe".toList]).toOption = none := by
  refine ⟨by decide, claim6_errors_amended.1 _ (by decide), ?_, ?_⟩
  · exact claim6_errors_amended.2.1 "ab cd".toList 2 (by rfl) (by rfl)
  · exact claim6_errors_amended.2.2 ["onlyaframe".toList] "onlyaframe".toList
      (List.mem_singleton.mpr rfl)
      ⟨"no cycles available!", claim6_errors_amended.1 _ (by decide)⟩

/-- C7: on the input line `main; foo; bar 5` the decoder yields one Frame
with stack `[bar, foo, main]` (split on the last space and on `"; "`,
then reversed) and cycles 5, and the assembled profile has 3 Functions
and one Sample with location ids `[1, 2, 3]` and values `[5, 5]`. -/
theorem claim7_scenario_a :
    parseAll ["main; foo; bar 5".toList] =
      Except.ok [{ stack := [ { name := some "bar".toList, file := none }
                            , { name := some "foo".toList, file := none }
                            , { name := some "main".toList, file := none } ]
                 , cycles := 5 }] ∧
    (convert ["main; foo; bar 5".toList]).toOption.map
        (fun p => (p.function.length, p.sample)) =
      some (3, [{ location_id := [1, 2, 3], value := [5, 5] }]) := by
  refine ⟨by rfl, by rfl⟩

/-- C8: `normalize_function_name` is exactly the character-wise
substitution sending `<` to an opening brace and `>` to a closing brace
and fixing every other character; it is applied to parsed names (which
therefore never contain `<` or `>`), while a parsed file string is a
verbatim slice of the input token, with no substitution. -/
theorem claim8_normalization :
    (∀ s : Str, normalize_function_name s = s.map normChar) ∧
    (normChar '<' = '{' ∧ normChar '>' = '}' ∧
      ∀ c : Char, c ≠ '<' → c ≠ '>' → normChar c = c) ∧
    (∀ t f : Str, (parseToken t).file = some f → f.IsPrefix t) ∧
    (∀ t : Str, ∀ c ∈ (parseToken t).name.getD [], c ≠ '<' ∧ c ≠ '>') := by
  refine ⟨normalize_eq_map_normChar, ⟨by decide, by decide, ?_⟩, ?_, ?_⟩
  · intro c h1 h2
    unfold normChar
    rw [if_neg h1, if_neg h2]
  · intro t f h
    exact parseToken_file_verbatim h
  · intro t c h
    exact parseToken_name_ne_angle t h

/-- C8, witness: the normalization theorem evaluated on `foo<T>` and on a
token whose file part contains an angle bracket. -/
theorem claim8_normalization_witness :
    normalize_function_name "foo<T>".toList = "foo<T>".toList.map normChar ∧
    normalize_function_name "foo<T>".toList = ['f', 'o', 'o', '{', 'T', '}'] ∧
    (parseToken "a<b:c<d".toList).file = some "a<b".toList ∧
    List.IsPrefix "a<b".toList "a<b:c<d".toList := by
  refine ⟨claim8_normalization.1 _, by rfl, by rfl, ?_⟩
  exact claim8_normalization.2.2.1 "a<b:c<d".toList "a<b".toList (by rfl)

/-- C9: the assembled profile's sample types are the samples/count pair
followed by the cpu/nanoseconds pair, in that order, with all four string
indices resolving through the final string table; the period type is the
cpu/nanoseconds value type and the period is
`1_000_000_000 / FREQUENCY = 1`. -/
theorem claim9_assembly (frames : List Frame) :
    (buildProfile frames).sample_type.length = 2 ∧
    (buildProfile frames).string_table.getD
        ((buildProfile frames).sample_type.getD 0 dfltVT).field_type [] = SAMPLES ∧
    (buildProfile frames).string_table.getD
        ((buildProfile frames).sample_type.getD 0 dfltVT).unit [] = COUNT ∧
    (buildProfile frames).string_table.getD
        ((buildProfile frames).sample_type.getD 1 dfltVT).field_type [] = CPU ∧
    (buildProfile frames).string_table.getD
        ((buildProfile frames).sample_type.getD 1 dfltVT).unit [] = NANOSECONDS ∧
    (buildProfile frames).period_type =
      some ((buildProfile frames).sample_type.getD 1 dfltVT) ∧
    (buildProfile frames).period = Int.tdiv 1000000000 (toI64 FREQUENCY) ∧
    (buildProfile frames).period = 1 := by
  obtain ⟨hS, hC, hP, hN⟩ := labels_mem_collectStrings frames
  have hSm : SAMPLES ∈ strTbl frames := List.mem_cons_of_mem _ hS
  have hCm : COUNT ∈ strTbl frames := List.mem_cons_of_mem _ hC
  have hPm : CPU ∈ strTbl frames := List.mem_cons_of_mem _ hP
  have hNm : NANOSECONDS ∈ strTbl frames := List.mem_cons_of_mem _ hN
  rw [buildProfile_sample_type, buildProfile_string_table, buildProfile_period_type,
    buildProfile_period]
  refine ⟨rfl, (stringsGet_sound hSm).2, (stringsGet_sound hCm).2,
    (stringsGet_sound hPm).2, (stringsGet_sound hNm).2, rfl, rfl, ?_⟩
  rw [toI64_FREQUENCY]
  decide

/-- C4: the number of Function records equals the number of distinct
symbol display names over all frames (registration keyed on the name
alone); the `i`-th record has the 1-based id `i + 1` and is built from
the first symbol, in processing order, whose display name is the `i`-th
distinct name — so its recorded filename is the file of that first
occurrence, and its name and filename indices resolve through the string
table to that symbol's display name and file label. -/
theorem claim4_functions (frames : List Frame) (i : Nat)
    (hi : i < (buildProfile frames).function.length) :
    (buildProfile frames).function.length =
      (firstOccDedup ((frames.flatMap Frame.stack).map Symbol.dispName)).length ∧
    ((buildProfile frames).function.getD i dfltFn).id = i + 1 ∧
    ∃ sym : Symbol,
      (frames.flatMap Frame.stack).find?
          (fun s => decide (s.dispName =
            (firstOccDedup
              ((frames.flatMap Frame.stack).map Symbol.dispName)).getD i [])) =
        some sym ∧
      (buildProfile frames).function.getD i dfltFn =
        mkFunction (buildStrings (strTbl frames)) (i + 1) sym ∧
      (buildProfile frames).string_table.getD
          ((buildProfile frames).function.getD i dfltFn).name [] = sym.dispName ∧
      (buildProfile frames).string_table.getD
          ((buildProfile frames).function.getD i dfltFn).filename [] = sym.dispFile := by
  have hfn : (buildProfile frames).function =
      newFns (buildStrings (strTbl frames)) [] (frames.flatMap Frame.stack) := by
    rw [buildProfile_function,
      (runSyms_spec (buildStrings (strTbl frames)) (frames.flatMap Frame.stack)
        initState [] regInv_init).1]
    rfl
  have hlen1 : (newFns (buildStrings (strTbl frames)) [] (frames.flatMap Frame.stack)).length
      = (newSyms [] (frames.flatMap Frame.stack)).length :=
    newFns_length (buildStrings (strTbl frames)) (frames.flatMap Frame.stack) []
  have hnames : firstOccDedup ((frames.flatMap Frame.stack).map Symbol.dispName) =
      (newSyms [] (frames.flatMap Frame.stack)).map Symbol.dispName :=
    firstOccAux_eq_map_newSyms (frames.flatMap Frame.stack) []
  have hi' : i < (newSyms [] (frames.flatMap Frame.stack)).length := by
    rw [hfn, hlen1] at hi
    exact hi
  have hgetDsym : (newSyms [] (frames.flatMap Frame.stack)).getD i dfltSym =
      (newSyms [] (frames.flatMap Frame.stack)).get ⟨i, hi'⟩ := by
    rw [List.getD_eq_getElem?_getD, List.getElem?_eq_getElem hi']
    rfl
  have hB : (buildProfile frames).function.getD i dfltFn =
      mkFunction (buildStrings (strTbl frames)) (i + 1)
        ((newSyms [] (frames.flatMap Frame.stack)).getD i dfltSym) := by
    rw [hfn, newFns_getD (buildStrings (strTbl frames)) (frames.flatMap Frame.stack)
      [] i hi']
    simp
  have hsymmem : (newSyms [] (frames.flatMap Frame.stack)).getD i dfltSym ∈
      frames.flatMap Frame.stack := by
    apply newSyms_mem (frames.flatMap Frame.stack) []
    rw [hgetDsym]
    exact List.get_mem _ _ hi'
  have hgd : (firstOccDedup ((frames.flatMap Frame.stack).map Symbol.dispName)).getD i []
      = ((newSyms [] (frames.flatMap Frame.stack)).getD i dfltSym).dispName := by
    rw [hnames, List.getD_eq_getElem?_getD, List.getElem?_map,
      List.getElem?_eq_getElem hi']
    rw [hgetDsym]
    rfl
  obtain ⟨hnmem, hfmem⟩ := sym_mem_collectStrings hsymmem
  refine ⟨?_, ?_, ⟨(newSyms [] (frames.flatMap Frame.stack)).getD i dfltSym,
    ?_, hB, ?_, ?_⟩⟩
  · rw [hfn, hlen1, hnames, List.length_map]
  · rw [hB]
    rfl
  · rw [hgd]
    exact newSyms_find? (frames.flatMap Frame.stack) [] i hi'
  · rw [buildProfile_string_table, hB]
    exact (stringsGet_sound (List.mem_cons_of_mem _ hnmem)).2
  · rw [buildProfile_string_table, hB]
    exact (stringsGet_sound (List.mem_cons_of_mem _ hfmem)).2

/-- C4, witness: the theorem applied at index 0 to the parsed frames of
scenario E (`a.c:foo; x 1` and `b.c:foo; y 1`): three distinct names
(`x`, `foo`, `y`), the first Function has id 1. -/
theorem claim4_functions_witness :
    parseAll ["a.c:foo; x 1".toList, "b.c:foo; y 1".toList] = Except.ok framesE ∧
    0 < (buildProfile framesE).function.length ∧
    (buildProfile framesE).function.length = 3 ∧
    (firstOccDedup ((framesE.flatMap Frame.stack).map Symbol.dispName)).length = 3 ∧
    (buildProfile framesE).function.length =
      (firstOccDedup ((framesE.flatMap Frame.stack).map Symbol.dispName)).length ∧
    ((buildProfile framesE).function.getD 0 dfltFn).id = 0 + 1 := by
  have hc := claim4_functions framesE 0 (by decide)
  exact ⟨by rfl, by decide, by decide, by decide, hc.1, hc.2.1⟩

/-- C5: the location table is as long as the function table; the `i`-th
location's id equals the `i`-th function's id, its line list is the
singleton synthetic line with that function id and line number 0, and
exactly one location in the table carries that id. -/
theorem claim5_locations (frames : List Frame) (i : Nat)
    (hi : i < (buildProfile frames).function.length) :
    (buildProfile frames).location.length = (buildProfile frames).function.length ∧
    ((buildProfile frames).location.getD i dfltLoc).id =
      ((buildProfile frames).function.getD i dfltFn).id ∧
    ((buildProfile frames).location.getD i dfltLoc).line =
      [{ function_id := ((buildProfile frames).function.getD i dfltFn).id
       , line := 0 }] ∧
    ((buildProfile frames).location.filter (fun l =>
      decide (l.id = ((buildProfile frames).function.getD i dfltFn).id))).length = 1 := by
  obtain ⟨hlen, hfnid, hlocid, _⟩ :=
    runSyms_good (buildStrings (strTbl frames)) (frames.flatMap Frame.stack)
      initState goodReg_init
  have hi0 : i < (runSyms (buildStrings (strTbl frames)) initState
      (frames.flatMap Frame.stack)).fnTbl.length := by
    rw [buildProfile_function] at hi
    exact hi
  have hi1 : i < (runSyms (buildStrings (strTbl frames)) initState
      (frames.flatMap Frame.stack)).locTbl.length := by omega
  have hkeys : ∀ k, k < (runSyms (buildStrings (strTbl frames)) initState
      (frames.flatMap Frame.stack)).locTbl.length →
      Location.id ((runSyms (buildStrings (strTbl frames)) initState
        (frames.flatMap Frame.stack)).locTbl.getD k dfltLoc) = 0 + k + 1 := by
    intro k hk
    rw [hlocid k hk]
    show k + 1 = 0 + k + 1
    omega
  refine ⟨?_, ?_, ?_, ?_⟩
  · rw [buildProfile_location, buildProfile_function]
    exact hlen
  · rw [buildProfile_location, buildProfile_function, hlocid i hi1, hfnid i hi0]
    rfl
  · rw [buildProfile_location, buildProfile_function, hlocid i hi1, hfnid i hi0]
    rfl
  · rw [buildProfile_location, buildProfile_function, hfnid i hi0]
    exact filter_key_len_one Location.id dfltLoc _ 0 (i + 1) hkeys (by omega)
      (by omega)

/-- C5, witness: the theorem applied at index 0 to one parsed frame of
`a 5`. -/
theorem claim5_locations_witness :
    0 < (buildProfile [frameA 5]).function.length ∧
    ((buildProfile [frameA 5]).location.length =
        (buildProfile [frameA 5]).function.length ∧
      ((buildProfile [frameA 5]).location.getD 0 dfltLoc).id =
        ((buildProfile [frameA 5]).function.getD 0 dfltFn).id ∧
      ((buildProfile [frameA 5]).location.getD 0 dfltLoc).line =
        [{ function_id := ((buildProfile [frameA 5]).function.getD 0 dfltFn).id
         , line := 0 }] ∧
      ((buildProfile [frameA 5]).location.filter (fun l =>
        decide (l.id =
          ((buildProfile [frameA 5]).function.getD 0 dfltFn).id))).length = 1) := by
  exact ⟨by decide, claim5_locations [frameA 5] 0 (by decide)⟩

/-- C10: function and location tables have equal length with the `k`-th
entry of each carrying id `k + 1`, and every id referenced from any
sample's location id list matches exactly one Location record and exactly
one Function record. -/
theorem claim10_id_consistency (frames : List Frame) (s : Sample)
    (hs : s ∈ (buildProfile frames).sample) (id : Nat) (hid : id ∈ s.location_id) :
    (buildProfile frames).function.length = (buildProfile frames).location.length ∧
    (∀ k, k < (buildProfile frames).function.length →
      ((buildProfile frames).function.getD k dfltFn).id = k + 1 ∧
      ((buildProfile frames).location.getD k dfltLoc).id = k + 1) ∧
    ((buildProfile frames).location.filter (fun l => decide (l.id = id))).length = 1 ∧
    ((buildProfile frames).function.filter (fun f => decide (f.id = id))).length = 1 := by
  obtain ⟨hlen, hfnid, hlocid, _⟩ :=
    runSyms_good (buildStrings (strTbl frames)) (frames.flatMap Frame.stack)
      initState goodReg_init
  rw [buildProfile_sample] at hs
  obtain ⟨h1, h2⟩ := samplesList_ids_range (buildStrings (strTbl frames)) frames
    initState goodReg_init s hs id hid
  have hfkeys : ∀ k, k < (runSyms (buildStrings (strTbl frames)) initState
      (frames.flatMap Frame.stack)).fnTbl.length →
      Function.id ((runSyms (buildStrings (strTbl frames)) initState
        (frames.flatMap Frame.stack)).fnTbl.getD k dfltFn) = 0 + k + 1 := by
    intro k hk
    rw [hfnid k hk]
    omega
  have hlkeys : ∀ k, k < (runSyms (buildStrings (strTbl frames)) initState
      (frames.flatMap Frame.stack)).locTbl.length →
      Location.id ((runSyms (buildStrings (strTbl frames)) initState
        (frames.flatMap Frame.stack)).locTbl.getD k dfltLoc) = 0 + k + 1 := by
    intro k hk
    rw [hlocid k hk]
    show k + 1 = 0 + k + 1
    omega
  refine ⟨?_, ?_, ?_, ?_⟩
  · rw [buildProfile_location, buildProfile_function]
    omega
  · intro k hk
    rw [buildProfile_function] at hk
    rw [buildProfile_location, buildProfile_function, hfnid k hk,
      hlocid k (by omega)]
    exact ⟨rfl, rfl⟩
  · rw [buildProfile_location]
    exact filter_key_len_one Location.id dfltLoc _ 0 id hlkeys (by omega) (by omega)
  · rw [buildProfile_function]
    exact filter_key_len_one Function.id dfltFn _ 0 id hfkeys (by omega) (by omega)

/-- C10, witness: the theorem applied to the single sample of the parsed
frame of `a 3` and its referenced id 1. -/
theorem claim10_id_consistency_witness :
    { location_id := [1], value := [3, 3] } ∈ (buildProfile [frameA 3]).sample ∧
    (1 : Nat) ∈ ({ location_id := [1], value := [3, 3] } : Sample).location_id ∧
    ((buildProfile [frameA 3]).location.filter
      (fun l => decide (l.id = 1))).length = 1 ∧
    ((buildProfile [frameA 3]).function.filter
      (fun f => decide (f.id = 1))).length = 1 := by
  have hc := claim10_id_consistency [frameA 3]
    { location_id := [1], value := [3, 3] } (by decide) 1 (by decide)
  exact ⟨by decide, by decide, hc.2.2.1, hc.2.2.2⟩

end CkbPprof
